import Mathlib

/-
  Verification of the `library_reading` repository's core:
  the next-book transition model, the recommendation strategies, the
  sticky experiment allocator and the outcome logger, shallowly embedded
  from `src/library_reading/experiment_harness.py` and
  `src/library_reading/basic_demo.py`.

  Modelling conventions:
  * The string identifiers of the source (user ids, book ids, strategy
    names) are opaque there; they are modelled as naturals, keeping only
    equality and ordering.  The uuid4 assignment ids are modelled as a
    fresh natural-number counter: the property the source relies on is
    freshness of each generated id.
  * pandas DataFrames become lists of rows; float arithmetic is modelled
    exactly over ℚ; a python dict keyed by ids becomes a function or an
    insertion-ordered association list, matching dict semantics.
  * The stable sorts of the source (python `sorted`, pandas sorts; the
    kind of pandas sort is unspecified on ties and no theorem below
    depends on tie order of a pandas sort) are modelled by
    `List.insertionSort`, which is stable.
  * Wall-clock timestamps written into log rows are not modelled; every
    other field of a log row is.
-/

namespace LibraryReading

/-- A checkout event: one row of the checkout history DataFrame
(`user_id`, `book_id`, `timestamp`). -/
structure Event where
  user_id : ℕ
  book_id : ℕ
  timestamp : ℕ
deriving DecidableEq, Repr

/-- `get_user_history`: the user's rows of the checkout history, sorted by
timestamp (stably). -/
def get_user_history (checkouts : List Event) (user_id : ℕ) : List Event :=
  List.insertionSort (fun e f => e.timestamp ≤ f.timestamp)
    (checkouts.filter (fun e => e.user_id == user_id))

/-- The user's checkout history as a list of book ids, in time order. -/
def userBooks (checkouts : List Event) (user_id : ℕ) : List ℕ :=
  (get_user_history checkouts user_id).map (·.book_id)

/-- The distinct user ids of the history, ascending (the order of the
groups of the frame sorted by `["user_id", "timestamp"]`). -/
def usersOf (checkouts : List Event) : List ℕ :=
  List.insertionSort (· ≤ ·) ((checkouts.map (·.user_id)).dedup)

/-- The `(book_id, next_book)` pairs produced by
`df.groupby("user_id")["book_id"].shift(-1)` on the frame sorted by
`["user_id", "timestamp"]`: the consecutive pairs inside each user's
time-sorted sequence. -/
def transitionPairs (checkouts : List Event) : List (ℕ × ℕ) :=
  (usersOf checkouts).flatMap (fun u =>
    let h := userBooks checkouts u
    h.zip h.tail)

/-- One row of the transition table returned by `build_transition_model`:
`current_book`, `next_book`, `count`, `prob`. -/
structure TransitionEdge where
  current_book : ℕ
  next_book : ℕ
  count : ℕ
  prob : ℚ
deriving DecidableEq, Repr

/-- Lexicographic order on `(current_book, next_book)` keys: the row
order produced by `groupby(["book_id", "next_book"]).size()`. -/
def pairLe (p q : ℕ × ℕ) : Prop :=
  p.1 < q.1 ∨ (p.1 = q.1 ∧ p.2 ≤ q.2)

instance : DecidableRel pairLe := fun p q => by
  unfold pairLe; infer_instance

/-- The distinct `(current_book, next_book)` keys of the transition
table, in table row order. -/
def transitionKeys (checkouts : List Event) : List (ℕ × ℕ) :=
  List.insertionSort pairLe (transitionPairs checkouts).dedup

/-- The `count` column: how often the pair occurs in the history. -/
def transitionCount (checkouts : List Event) (p : ℕ × ℕ) : ℕ :=
  (transitionPairs checkouts).count p

/-- The `total` column: `transitions.groupby("current_book")["count"].sum()`,
the sum of the count column over the rows of one `current_book`. -/
def transitionTotal (checkouts : List Event) (b : ℕ) : ℕ :=
  (((transitionKeys checkouts).filter (fun p => p.1 == b)).map
    (transitionCount checkouts)).sum

/-- `build_transition_model(checkouts)`: the transition table with
`prob = count / total` per row. -/
def build_transition_model (checkouts : List Event) : List TransitionEdge :=
  (transitionKeys checkouts).map fun p =>
    { current_book := p.1
      next_book := p.2
      count := transitionCount checkouts p
      prob := (transitionCount checkouts p : ℚ) / (transitionTotal checkouts p.1 : ℚ) }

/-- The rows of the transition table whose `current_book` is `b`. -/
def outgoingEdges (checkouts : List Event) (b : ℕ) : List TransitionEdge :=
  (build_transition_model checkouts).filter (fun e => e.current_book == b)

/-! Helper lemmas about the transition table. -/

theorem mem_transitionKeys_count_pos {checkouts : List Event} {p : ℕ × ℕ}
    (h : p ∈ transitionKeys checkouts) : 0 < transitionCount checkouts p := by
  have hmem : p ∈ transitionPairs checkouts := by
    have := (List.perm_insertionSort pairLe (transitionPairs checkouts).dedup).mem_iff.mp h
    exact List.mem_dedup.mp this
  exact List.count_pos_iff.mpr hmem

theorem outgoingEdges_eq_map (checkouts : List Event) (b : ℕ) :
    outgoingEdges checkouts b =
      (((transitionKeys checkouts).filter (fun p => p.1 == b)).map fun p =>
        ({ current_book := p.1, next_book := p.2,
           count := transitionCount checkouts p,
           prob := (transitionCount checkouts p : ℚ) /
             (transitionTotal checkouts p.1 : ℚ) } : TransitionEdge)) := by
  unfold outgoingEdges build_transition_model
  rw [List.filter_map]
  rfl

theorem count_le_transitionTotal {checkouts : List Event} {p : ℕ × ℕ}
    (hk : p ∈ transitionKeys checkouts) (hb : p.1 = b) :
    transitionCount checkouts p ≤ transitionTotal checkouts b := by
  apply List.single_le_sum (by intro x _; exact Nat.zero_le x)
  exact List.mem_map_of_mem _ (List.mem_filter.mpr ⟨hk, by simp [hb]⟩)

theorem transitionTotal_pos {checkouts : List Event} {p : ℕ × ℕ}
    (hk : p ∈ transitionKeys checkouts) (hb : p.1 = b) :
    0 < transitionTotal checkouts b :=
  lt_of_lt_of_le (mem_transitionKeys_count_pos hk) (count_le_transitionTotal hk hb)

/-- **C3.** For every event log and every `from_item` with at least one
outgoing edge in the built transition model, the probabilities of its
outgoing edges sum to exactly 1 (hence within `1e-9`), every edge's
count is an integer ≥ 1, and every edge's probability lies in `(0, 1]`.
(Float arithmetic of the source is modelled exactly over ℚ.) -/
theorem transition_model_invariants (checkouts : List Event) (b : ℕ)
    (h : outgoingEdges checkouts b ≠ []) :
    ((outgoingEdges checkouts b).map (·.prob)).sum = 1 ∧
      ∀ e ∈ outgoingEdges checkouts b, 1 ≤ e.count ∧ 0 < e.prob ∧ e.prob ≤ 1 := by
  rw [outgoingEdges_eq_map] at h ⊢
  set K := (transitionKeys checkouts).filter (fun p => p.1 == b) with hK
  have hKkeys : ∀ p ∈ K, p ∈ transitionKeys checkouts ∧ p.1 = b := by
    intro p hp
    have := List.mem_filter.mp hp
    exact ⟨this.1, by simpa using this.2⟩
  have hKne : K ≠ [] := by
    intro hnil; apply h; rw [hnil]; rfl
  obtain ⟨p0, hp0⟩ := List.exists_mem_of_ne_nil K hKne
  have hT : 0 < transitionTotal checkouts b :=
    transitionTotal_pos (hKkeys p0 hp0).1 (hKkeys p0 hp0).2
  have hTQ : ((transitionTotal checkouts b : ℚ)) ≠ 0 := by
    exact_mod_cast Nat.pos_iff_ne_zero.mp hT
  constructor
  · rw [List.map_map]
    have hfun : ∀ p ∈ K,
        ((fun e : TransitionEdge => e.prob) ∘ fun p : ℕ × ℕ =>
          ({ current_book := p.1, next_book := p.2,
             count := transitionCount checkouts p,
             prob := (transitionCount checkouts p : ℚ) /
               (transitionTotal checkouts p.1 : ℚ) } : TransitionEdge)) p =
        (transitionCount checkouts p : ℚ) * (transitionTotal checkouts b : ℚ)⁻¹ := by
      intro p hp
      simp [div_eq_mul_inv, (hKkeys p hp).2]
    rw [List.map_congr_left hfun, List.sum_map_mul_right]
    have hcast : (K.map fun p => (transitionCount checkouts p : ℚ)).sum =
        ((K.map (transitionCount checkouts)).sum : ℚ) := by
      rw [Nat.cast_list_sum, List.map_map]; rfl
    rw [hcast]
    have : ((K.map (transitionCount checkouts)).sum : ℚ) =
        (transitionTotal checkouts b : ℚ) := by
      norm_cast
    rw [this, mul_inv_cancel₀ hTQ]
  · intro e he
    obtain ⟨p, hp, rfl⟩ := List.mem_map.mp he
    have hk := (hKkeys p hp).1
    have hb := (hKkeys p hp).2
    have hc : 0 < transitionCount checkouts p := mem_transitionKeys_count_pos hk
    refine ⟨hc, ?_, ?_⟩
    · apply div_pos
      · exact_mod_cast hc
      · rw [hb]; exact_mod_cast hT
    · rw [hb, div_le_one (by exact_mod_cast hT)]
      exact_mod_cast count_le_transitionTotal hk hb

/-- The spec's own scenario events: user 1 reads books 1, 2, 3; user 2
reads books 2, 4.  Book 2 then has the two outgoing edges 2→3 and 2→4,
each with probability 1/2. -/
def c3Checkouts : List Event :=
  [⟨1, 1, 1⟩, ⟨1, 2, 2⟩, ⟨1, 3, 3⟩, ⟨2, 2, 1⟩, ⟨2, 4, 2⟩]

/-- Witness for C3 at a concrete input: `from_item` 2 of the scenario
log has outgoing edges, so its probabilities sum to 1 with all
invariants holding. -/
theorem transition_model_invariants_witness :
    (outgoingEdges c3Checkouts 2 ≠ []) ∧
    (((outgoingEdges c3Checkouts 2).map (·.prob)).sum = 1 ∧
      ∀ e ∈ outgoingEdges c3Checkouts 2,
        1 ≤ e.count ∧ 0 < e.prob ∧ e.prob ≤ 1) :=
  ⟨by decide, transition_model_invariants c3Checkouts 2 (by decide)⟩

/-! ### Strategy variants of the experiment harness -/

/-- The python dict update `scores[nb] = scores.get(nb, 0.0) + prob`:
update in place when the key exists (keeping its position), else append
at the end (dict insertion order). -/
def upsertScore : List (ℕ × ℚ) → ℕ → ℚ → List (ℕ × ℚ)
  | [], b, p => [(b, p)]
  | (c, q) :: rest, b, p =>
    if c = b then (c, q + p) :: rest else (c, q) :: upsertScore rest b p

/-- `next_book_recs(student_id, checkouts, transitions, k)`: sum the
outgoing transition probabilities of the user's last (up to) 3 books,
drop already-read books, rank by score descending (python `sorted` is
stable, so equal scores keep dict insertion order) and keep the top k. -/
def next_book_recs (student_id : ℕ) (checkouts : List Event)
    (transitions : List TransitionEdge) (k : ℕ) : List (ℕ × ℚ) :=
  let user_hist := userBooks checkouts student_id
  if user_hist = [] then []
  else
    let recent_books := user_hist.drop (user_hist.length - 3)
    let scores := recent_books.foldl (fun sc b =>
      (transitions.filter (fun e => e.current_book == b)).foldl
        (fun sc e => upsertScore sc e.next_book e.prob) sc) []
    let scores := scores.filter (fun s => !(user_hist.contains s.1))
    if scores = [] then []
    else (List.insertionSort (fun x y : ℕ × ℚ => y.2 ≤ x.2) scores).take k

/-- The `(book_id, count)` table `checkouts.groupby("book_id").size()`:
distinct book ids ascending, each with its global checkout count. -/
def bookCounts (checkouts : List Event) : List (ℕ × ℕ) :=
  (List.insertionSort (· ≤ ·) ((checkouts.map (·.book_id)).dedup)).map
    (fun b => (b, (checkouts.map (·.book_id)).count b))

/-- `popularity_recs(student_id, checkouts, k)`: globally most-read books
sorted by count descending, excluding the user's already-read books,
top k (the count column, an integer in the source, is returned as the
score). -/
def popularity_recs (student_id : ℕ) (checkouts : List Event) (k : ℕ) :
    List (ℕ × ℚ) :=
  if checkouts = [] then []
  else
    let already := userBooks checkouts student_id
    let pop := List.insertionSort (fun x y : ℕ × ℕ => y.2 ≤ x.2) (bookCounts checkouts)
    ((pop.filter (fun s => !(already.contains s.1))).take k).map
      (fun s => (s.1, (s.2 : ℚ)))

/-- One catalog row (`book_id`, `librarian_pick`); the title column is
presentation-only and not modelled. -/
structure CatalogRow where
  book_id : ℕ
  librarian_pick : Bool
deriving DecidableEq, Repr

/-- `librarian_picks_recs(student_id, checkouts, catalog, k)`: catalog
books flagged `librarian_pick` minus the user's already-read books,
ranked by global checkout count descending, top k.  (The source's left
join of the picks with the per-pick checkout counts followed by
`fillna({"count": 0})` assigns every pick its global checkout count,
with 0 for a never-checked-out pick, which is what the `count` call
below yields.) -/
def librarian_picks_recs (student_id : ℕ) (checkouts : List Event)
    (catalog : List CatalogRow) (k : ℕ) : List (ℕ × ℚ) :=
  let already := userBooks checkouts student_id
  let picks := (catalog.filter (·.librarian_pick)).filter
    (fun r => !(already.contains r.book_id))
  if picks = [] then []
  else
    let merged := picks.map (fun r =>
      (r.book_id, (checkouts.map (·.book_id)).count r.book_id))
    ((List.insertionSort (fun x y : ℕ × ℕ => y.2 ≤ x.2) merged).take k).map
      (fun s => (s.1, (s.2 : ℚ)))

/-! ### basic_demo: the fallback chain -/

/-- `load_librarian_recommendations()` of basic_demo: the fixed curated
list `["b6", ..., "b10"]`, modelled as book ids 6–10. -/
def load_librarian_recommendations : List ℕ := [6, 7, 8, 9, 10]

/-- `get_all_books`: the set of checkout books united with the librarian
list (a python set; only membership is ever used downstream, and the
random branch reshuffles it anyway). -/
def get_all_books (checkouts : List Event) : List ℕ :=
  ((checkouts.map (·.book_id)) ++ load_librarian_recommendations).dedup

/-- basic_demo's `recommend_popular_books_for_user(user_id, checkouts, k)`:
top-k most checked-out books the user has not read, ids only. -/
def recommend_popular_books_for_user (user_id : ℕ) (checkouts : List Event)
    (k : ℕ) : List ℕ :=
  let user_read_books := (checkouts.filter (fun e => e.user_id == user_id)).map (·.book_id)
  let popularity := List.insertionSort (fun x y : ℕ × ℕ => y.2 ≤ x.2) (bookCounts checkouts)
  ((popularity.filter (fun s => !(user_read_books.contains s.1))).take k).map (·.1)

/-- The strategy labels returned by basic_demo's
`recommend_next_books_for_user` (string constants in the source). -/
inductive StrategyLabel where
  | transition
  | popularity
  | librarian
  | random
  | no_history
  | all_read
deriving DecidableEq, Repr

/-- basic_demo's `recommend_next_books_for_user(user_id, checkouts,
transitions, k)`: transition-based ranking from the user's last book,
falling back to popularity, then the librarian list, then random unread
books.  `random.shuffle` is modelled by an injected `shuffle` function
(an arbitrary reordering; the theorems below hold for every such
function). -/
def recommend_next_books_for_user (user_id : ℕ) (checkouts : List Event)
    (transitions : List TransitionEdge) (k : ℕ)
    (shuffle : List ℕ → List ℕ) : List ℕ × StrategyLabel :=
  let user_hist := userBooks checkouts user_id
  if user_hist = [] then ([], .no_history)
  else
    let last_book := user_hist.getLast?.getD 0
    let user_read_books := user_hist
    let candidates := transitions.filter (fun e => e.current_book == last_book)
    if candidates ≠ [] then
      (((List.insertionSort (fun x y : TransitionEdge => y.prob ≤ x.prob)
          candidates).take k).map (·.next_book), .transition)
    else
      let popular_recs := recommend_popular_books_for_user user_id checkouts k
      if popular_recs ≠ [] then (popular_recs, .popularity)
      else
        let unread_librarian := load_librarian_recommendations.filter
          (fun b => !(user_read_books.contains b))
        if unread_librarian ≠ [] then (unread_librarian.take k, .librarian)
        else
          let unread_books := (get_all_books checkouts).filter
            (fun b => !(user_read_books.contains b))
          if unread_books ≠ [] then ((shuffle unread_books).take k, .random)
          else ([], .all_read)

/-! ### C1: already-read books can be returned by the demo chain -/

/-- A four-event history: user 1 reads book 10 then 11, user 2 reads
book 11 then 10.  The learned transitions are 10→11 and 11→10, so the
transition branch recommends user 1 their own already-read book 10. -/
def c1Checkouts : List Event :=
  [⟨1, 10, 1⟩, ⟨1, 11, 2⟩, ⟨2, 11, 1⟩, ⟨2, 10, 2⟩]

/-- **C1** (code bug).  The claim says no strategy and no fallback chain
ever returns an item already present in the user's event history, and
spec §4.2 requires the transition strategy to exclude consumed items.
The harness strategies and the demo's other fallback branches all filter
the user's read books, but basic_demo's `recommend_next_books_for_user`
transition branch (basic_demo.py lines 160–165) forgets the filter: on
`c1Checkouts` it recommends book 10 to user 1, who has already read it. -/
theorem basic_demo_transition_returns_read_book :
    recommend_next_books_for_user 1 c1Checkouts
        (build_transition_model c1Checkouts) 3 (fun l => l) =
      ([10], .transition) ∧
    10 ∈ userBooks c1Checkouts 1 := by
  constructor
  · decide
  · decide

/-! ### C9: empty history is not an error -/

/-- **C9.** A user with empty (or unknown) history is not an error: the
transition strategy contributes no candidates (`next_book_recs` returns
`[]`, for any transition table), basic_demo's chain returns the neutral
`([], "no_history")` result, and the history-tolerant popularity
strategy still serves such a user whenever the global history is
non-empty. -/
theorem empty_history_not_an_error (checkouts : List Event)
    (transitions : List TransitionEdge) (u k : ℕ)
    (shuffle : List ℕ → List ℕ)
    (h : userBooks checkouts u = []) :
    next_book_recs u checkouts transitions k = [] ∧
    recommend_next_books_for_user u checkouts transitions k shuffle =
      ([], .no_history) ∧
    (checkouts ≠ [] → 1 ≤ k → popularity_recs u checkouts k ≠ []) := by
  refine ⟨?_, ?_, ?_⟩
  · simp [next_book_recs, h]
  · simp [recommend_next_books_for_user, h]
  · intro hcs hk
    simp only [popularity_recs, if_neg hcs, h]
    have hns : ∀ {r : ℕ × ℕ → ℕ × ℕ → Prop} [DecidableRel r] {l : List (ℕ × ℕ)},
        l ≠ [] → List.insertionSort r l ≠ [] := by
      intro r _ l hl hnil
      have hperm := List.perm_insertionSort r l
      rw [hnil] at hperm
      exact hl hperm.symm.eq_nil
    have hnsn : ∀ {r : ℕ → ℕ → Prop} [DecidableRel r] {l : List ℕ},
        l ≠ [] → List.insertionSort r l ≠ [] := by
      intro r _ l hl hnil
      have hperm := List.perm_insertionSort r l
      rw [hnil] at hperm
      exact hl hperm.symm.eq_nil
    have hbooks : checkouts.map (·.book_id) ≠ [] := by
      simpa using hcs
    have hdedup : (checkouts.map (·.book_id)).dedup ≠ [] := by
      intro hnil
      exact hbooks ((List.dedup_eq_nil _).mp hnil)
    have hbc : bookCounts checkouts ≠ [] := by
      intro hnil
      exact hnsn hdedup (List.map_eq_nil_iff.mp hnil)
    have hsort : List.insertionSort (fun x y : ℕ × ℕ => y.2 ≤ x.2)
        (bookCounts checkouts) ≠ [] := hns hbc
    have hfilter : ∀ l : List (ℕ × ℕ),
        l.filter (fun s => !(([] : List ℕ).contains s.1)) = l := by
      intro l
      simp
    rw [hfilter]
    intro hnil
    rcases List.map_eq_nil_iff.mp hnil with htake
    rcases List.take_eq_nil_iff.mp htake with h0 | hs
    · omega
    · exact hsort hs

/-- Witness for C9 at a concrete input: user 9 has no history in a
one-event log, yet popularity still serves them. -/
theorem empty_history_not_an_error_witness :
    (userBooks [⟨1, 10, 1⟩] 9 = []) ∧
    (next_book_recs 9 [⟨1, 10, 1⟩] [] 1 = [] ∧
      recommend_next_books_for_user 9 [⟨1, 10, 1⟩] [] 1 (fun l => l) =
        ([], .no_history) ∧
      ([⟨1, 10, 1⟩] ≠ ([] : List Event) → 1 ≤ 1 →
        popularity_recs 9 [⟨1, 10, 1⟩] 1 ≠ [])) :=
  ⟨by decide, empty_history_not_an_error [⟨1, 10, 1⟩] [] 9 1 (fun l => l) (by decide)⟩

/-! ### C8: ranking order of the strategy outputs -/

theorem pairwise_scoreDescQ_insertionSort (l : List (ℕ × ℚ)) :
    (List.insertionSort (fun x y : ℕ × ℚ => y.2 ≤ x.2) l).Pairwise
      (fun x y : ℕ × ℚ => y.2 ≤ x.2) := by
  haveI : IsTotal (ℕ × ℚ) (fun x y : ℕ × ℚ => y.2 ≤ x.2) :=
    ⟨fun a b => le_total b.2 a.2⟩
  haveI : IsTrans (ℕ × ℚ) (fun x y : ℕ × ℚ => y.2 ≤ x.2) :=
    ⟨fun a b c h1 h2 => le_trans h2 h1⟩
  exact List.sorted_insertionSort _ l

theorem pairwise_scoreDescN_insertionSort (l : List (ℕ × ℕ)) :
    (List.insertionSort (fun x y : ℕ × ℕ => y.2 ≤ x.2) l).Pairwise
      (fun x y : ℕ × ℕ => y.2 ≤ x.2) := by
  haveI : IsTotal (ℕ × ℕ) (fun x y : ℕ × ℕ => y.2 ≤ x.2) :=
    ⟨fun a b => le_total b.2 a.2⟩
  haveI : IsTrans (ℕ × ℕ) (fun x y : ℕ × ℕ => y.2 ≤ x.2) :=
    ⟨fun a b c h1 h2 => le_trans h2 h1⟩
  exact List.sorted_insertionSort _ l

/-- An eight-event history over four users.  The learned transitions are
20→21, 20→32, 21→20, 21→31, each with probability 1/2.  User 1 has read
books 20 and 21, so `next_book_recs` scores books 32 and 31 at 1/2 each
and — python `sorted` being stable on the dict insertion order — returns
32 before 31. -/
def c8Checkouts : List Event :=
  [⟨1, 20, 1⟩, ⟨1, 21, 2⟩, ⟨2, 20, 1⟩, ⟨2, 32, 2⟩,
   ⟨3, 21, 1⟩, ⟨3, 31, 2⟩, ⟨4, 21, 1⟩, ⟨4, 20, 2⟩]

/-- **C8** (counterexample).  The claim says items with equal score are
ordered by item_id ascending.  On `c8Checkouts`, `next_book_recs` for
user 1 returns books 32 and 31 with the same score 1/2, in that order —
the larger id first.  The source sorts only by score (python `sorted`
with a score key, stable on dict insertion order) and never breaks ties
by item id. -/
theorem next_book_ties_not_ascending :
    next_book_recs 1 c8Checkouts (build_transition_model c8Checkouts) 3 =
      [(32, 1/2), (31, 1/2)] ∧ (31 : ℕ) < 32 := by
  refine ⟨?_, by norm_num⟩
  have hmodel : build_transition_model c8Checkouts =
      [⟨20, 21, 1, 1/2⟩, ⟨20, 32, 1, 1/2⟩, ⟨21, 20, 1, 1/2⟩, ⟨21, 31, 1, 1/2⟩] := by
    norm_num [build_transition_model, transitionKeys, transitionPairs, transitionCount,
      transitionTotal, usersOf, userBooks, get_user_history, c8Checkouts,
      List.insertionSort, List.orderedInsert, pairLe]
  rw [hmodel]
  norm_num [next_book_recs, userBooks, get_user_history, c8Checkouts, upsertScore,
    List.insertionSort, List.orderedInsert]
  rw [if_neg (by simp : ¬([20, 21] : List ℕ) = []),
    if_neg (by simp : ¬([(32, (1:ℚ)/2), (31, 1/2)] : List (ℕ × ℚ)) = [])]

/-- **C8** (amended).  Every strategy variant returns its ranked list
ordered highest score first (scores non-increasing).  Equal-score items
keep the implementation's stable order (dict insertion order for the
transition strategy, the popularity table order otherwise), not
item_id-ascending order. -/
theorem strategies_rank_by_score_descending (u k : ℕ) (checkouts : List Event)
    (transitions : List TransitionEdge) (catalog : List CatalogRow) :
    (next_book_recs u checkouts transitions k).Pairwise
      (fun x y : ℕ × ℚ => y.2 ≤ x.2) ∧
    (popularity_recs u checkouts k).Pairwise (fun x y : ℕ × ℚ => y.2 ≤ x.2) ∧
    (librarian_picks_recs u checkouts catalog k).Pairwise
      (fun x y : ℕ × ℚ => y.2 ≤ x.2) := by
  refine ⟨?_, ?_, ?_⟩
  · rw [next_book_recs]
    split
    · exact List.Pairwise.nil
    · dsimp only
      split
      · exact List.Pairwise.nil
      · exact (pairwise_scoreDescQ_insertionSort _).sublist (List.take_sublist _ _)
  · rw [popularity_recs]
    split
    · exact List.Pairwise.nil
    · apply List.pairwise_map.mpr
      refine List.Pairwise.imp ?_ ((pairwise_scoreDescN_insertionSort _).sublist
        ((List.take_sublist _ _).trans (List.filter_sublist _)))
      intro a b h
      show ((b.2 : ℚ)) ≤ ((a.2 : ℚ))
      exact_mod_cast h
  · rw [librarian_picks_recs]
    split
    · exact List.Pairwise.nil
    · apply List.pairwise_map.mpr
      refine List.Pairwise.imp ?_
        ((pairwise_scoreDescN_insertionSort _).sublist (List.take_sublist _ _))
      intro a b h
      show ((b.2 : ℚ)) ≤ ((a.2 : ℚ))
      exact_mod_cast h

/-! ### The experiment harness: bids and sticky assignment -/

/-- A registered strategy of the harness: `Strategy(name, bid, func,
default_kwargs)`.  The scoring callable with its default kwargs already
bound is modelled as `func : ℕ → List (ℕ × ℚ)`, from student id to the
ranked `(book_id, score)` rows it returns. -/
structure Strategy where
  name : ℕ
  bid : ℚ
  func : ℕ → List (ℕ × ℚ)

/-- One value of the `_assignments` dict:
`{strategy_name, remaining, assignment_id}`.  `remaining` is a python
int (nothing stops it from going negative); the uuid4 `assignment_id`
string is modelled as a natural drawn from a fresh counter. -/
structure Assignment where
  strategy_name : ℕ
  remaining : ℤ
  assignment_id : ℕ
deriving DecidableEq, Repr

/-- One impression-log row appended by `ExperimentManager.recommend`
(the wall-clock timestamp column is not modelled). -/
structure LogEntry where
  student_id : ℕ
  strategy_name : ℕ
  assignment_id : ℕ
  n_shown : ℕ
deriving DecidableEq, Repr

/-- The `self.probs` vector computed by `ExperimentManager.__init__`:
`bids / bids.sum()`, where `bids` is first replaced by an all-ones
vector when `bids.sum() <= 0` (all-ones then normalizes to the uniform
vector `1 / len(bids)`). -/
def computeProbs (bids : List ℚ) : List ℚ :=
  if bids.sum ≤ 0 then bids.map (fun _ => 1 / (bids.length : ℚ))
  else bids.map (· / bids.sum)

/-- The state of an `ExperimentManager`.  Besides the source object's
fields (`strategies`, `n_books_per_assignment`, `probs`, the
`_assignments` dict, `logs`), the model carries the random source
explicitly: `draws` is the injected stream of raw values behind
`np.random.choice` (consumed at position `drawCount` and reduced mod
the registry size, so the reachable draws are exactly the indices
`np.random.choice` can return), and `nextId` is the uuid counter. -/
structure ExpManager where
  strategies : List Strategy
  n_books_per_assignment : ℤ
  probs : List ℚ
  assignments : ℕ → Option Assignment
  logs : List LogEntry
  nextId : ℕ
  draws : ℕ → ℕ
  drawCount : ℕ

/-- `ExperimentManager.__init__(strategies, n_books_per_assignment)`:
store the registry and the call budget, compute `probs` from the bids,
start with an empty `_assignments` dict and empty `logs`.  The source
constructor performs no validation whatsoever. -/
def ExpManager.init (strategies : List Strategy)
    (n_books_per_assignment : ℤ) (draws : ℕ → ℕ) : ExpManager :=
  { strategies := strategies
    n_books_per_assignment := n_books_per_assignment
    probs := computeProbs (strategies.map (·.bid))
    assignments := fun _ => none
    logs := []
    nextId := 0
    draws := draws
    drawCount := 0 }

/-- `_choose_strategy`: draw one index from the random source and return
that strategy (`none` models the `np.random.choice` exception on an
empty registry). -/
def chooseStrategy (m : ExpManager) : Option Strategy × ExpManager :=
  (m.strategies[(m.draws m.drawCount) % m.strategies.length]?,
   { m with drawCount := m.drawCount + 1 })

/-- The creation half of `_get_or_create_assignment`: draw a strategy,
generate a fresh assignment id, store and return the new assignment
with a full budget. -/
def createAssignment (m : ExpManager) (u : ℕ) :
    Option Assignment × ExpManager :=
  match chooseStrategy m with
  | (none, m') => (none, m')
  | (some st, m') =>
    let a : Assignment :=
      { strategy_name := st.name
        remaining := m'.n_books_per_assignment
        assignment_id := m'.nextId }
    (some a,
     { m' with
        assignments := fun v => if v = u then some a else m'.assignments v
        nextId := m'.nextId + 1 })

/-- `_get_or_create_assignment(student_id)`: reuse the stored assignment
while its `remaining > 0`, otherwise create a fresh one. -/
def getOrCreateAssignment (m : ExpManager) (u : ℕ) :
    Option Assignment × ExpManager :=
  match m.assignments u with
  | some a => if 0 < a.remaining then (some a, m) else createAssignment m u
  | none => createAssignment m u

/-- `ExperimentManager.recommend(student_id)`: fetch or create the
assignment, look up its strategy by name (`next(s for s in
self.strategies if s.name == strategy_name)`), call it, decrement
`remaining`, append exactly one impression-log row, and return the
recommendation rows.  A `none` first component models a python
exception (empty registry, or a dangling strategy name); state changes
made before the raise are kept, as on a live python object. -/
def ExpManager.recommend (m : ExpManager) (u : ℕ) :
    Option (List (ℕ × ℚ)) × ExpManager :=
  match getOrCreateAssignment m u with
  | (none, m') => (none, m')
  | (some a, m') =>
    match m'.strategies.find? (fun s => s.name == a.strategy_name) with
    | none => (none, m')
    | some st =>
      let recs := st.func u
      let a' : Assignment := { a with remaining := a.remaining - 1 }
      (some recs,
       { m' with
          assignments := fun v => if v = u then some a' else m'.assignments v
          logs := m'.logs ++
            [{ student_id := u, strategy_name := st.name,
               assignment_id := a.assignment_id,
               n_shown := (st.func u).length }] })

/-- Well-formedness of a manager state: every stored assignment names a
registered strategy.  This holds for every manager the source can
build, since assignment names are only ever copied out of the
registry. -/
def ExpManager.WF (m : ExpManager) : Prop :=
  ∀ u a, m.assignments u = some a →
    ∃ st ∈ m.strategies, st.name = a.strategy_name

theorem find_name_exists {S : List Strategy} {nm : ℕ}
    (h : ∃ st ∈ S, st.name = nm) :
    ∃ st, S.find? (fun s => s.name == nm) = some st ∧ st.name = nm ∧
      st ∈ S := by
  have hsome : (S.find? (fun s => s.name == nm)).isSome := by
    rw [List.find?_isSome]
    obtain ⟨st, hmem, hn⟩ := h
    exact ⟨st, hmem, by simp [hn]⟩
  obtain ⟨st, hst⟩ := Option.isSome_iff_exists.mp hsome
  refine ⟨st, hst, ?_, List.mem_of_find?_eq_some hst⟩
  simpa using List.find?_some hst

theorem getOrCreate_active {m : ExpManager} {u : ℕ} {a : Assignment}
    (ha : m.assignments u = some a) (hrem : 0 < a.remaining) :
    getOrCreateAssignment m u = (some a, m) := by
  unfold getOrCreateAssignment
  rw [ha]
  simp [hrem]

theorem getOrCreate_fresh {m : ExpManager} {u : ℕ}
    (hfresh : ∀ a, m.assignments u = some a → a.remaining ≤ 0) :
    getOrCreateAssignment m u = createAssignment m u := by
  unfold getOrCreateAssignment
  cases hmu : m.assignments u with
  | none => rfl
  | some a =>
    have := hfresh a hmu
    simp [not_lt.mpr this]

theorem createAssignment_eq {m : ExpManager} (u : ℕ)
    (hS : m.strategies ≠ []) :
    ∃ chosen : Strategy, chosen ∈ m.strategies ∧
      createAssignment m u =
        (some { strategy_name := chosen.name,
                remaining := m.n_books_per_assignment,
                assignment_id := m.nextId },
         { m with
            drawCount := m.drawCount + 1
            assignments := fun v => if v = u then
                some { strategy_name := chosen.name,
                       remaining := m.n_books_per_assignment,
                       assignment_id := m.nextId }
              else m.assignments v
            nextId := m.nextId + 1 }) := by
  have hlen : 0 < m.strategies.length := List.length_pos.mpr hS
  have hlt : (m.draws m.drawCount) % m.strategies.length <
      m.strategies.length := Nat.mod_lt _ hlen
  refine ⟨m.strategies[(m.draws m.drawCount) % m.strategies.length],
    List.getElem_mem hlt, ?_⟩
  unfold createAssignment chooseStrategy
  rw [List.getElem?_eq_getElem hlt]

/-- What one `recommend` call does on a user with no live assignment:
a strategy is drawn, a fresh assignment (new id `m.nextId`, full budget)
is stored and immediately served once, one log row is appended, no
other user's assignment changes. -/
theorem recommend_fresh_spec {m : ExpManager} {u : ℕ}
    (hS : m.strategies ≠ [])
    (hfresh : ∀ a, m.assignments u = some a → a.remaining ≤ 0) :
    ∃ chosen st : Strategy,
      chosen ∈ m.strategies ∧ st ∈ m.strategies ∧ st.name = chosen.name ∧
      (m.recommend u).1 = some (st.func u) ∧
      (m.recommend u).2.assignments u =
        some { strategy_name := chosen.name,
               remaining := m.n_books_per_assignment - 1,
               assignment_id := m.nextId } ∧
      (∀ v, v ≠ u → (m.recommend u).2.assignments v = m.assignments v) ∧
      (m.recommend u).2.logs = m.logs ++
        [{ student_id := u, strategy_name := chosen.name,
           assignment_id := m.nextId, n_shown := (st.func u).length }] ∧
      (m.recommend u).2.nextId = m.nextId + 1 ∧
      (m.recommend u).2.strategies = m.strategies ∧
      (m.recommend u).2.n_books_per_assignment =
        m.n_books_per_assignment := by
  obtain ⟨chosen, hmem, hcr⟩ := createAssignment_eq u hS
  have hgoc := (getOrCreate_fresh hfresh).trans hcr
  have hex : ∃ s ∈ m.strategies, s.name = chosen.name := ⟨chosen, hmem, rfl⟩
  obtain ⟨st, hfind, hstname, hstmem⟩ := find_name_exists hex
  refine ⟨chosen, st, hmem, hstmem, hstname, ?_, ?_, ?_, ?_, ?_, ?_, ?_⟩
  · simp [ExpManager.recommend, hgoc, hfind]
  · simp [ExpManager.recommend, hgoc, hfind]
  · intro v hv
    simp [ExpManager.recommend, hgoc, hfind, hv]
  · simp [ExpManager.recommend, hgoc, hfind, hstname]
  · simp [ExpManager.recommend, hgoc, hfind]
  · simp [ExpManager.recommend, hgoc, hfind]
  · simp [ExpManager.recommend, hgoc, hfind]

/-- What one `recommend` call does on a user with a live assignment
(`remaining > 0`): the stored assignment is reused as is, `remaining`
is decremented by exactly 1, one log row naming the stored strategy and
assignment id is appended, no other user's assignment changes and no
new id is generated. -/
theorem recommend_active_spec {m : ExpManager} {u : ℕ} {a : Assignment}
    (ha : m.assignments u = some a) (hrem : 0 < a.remaining)
    (hmem : ∃ s ∈ m.strategies, s.name = a.strategy_name) :
    ∃ st : Strategy, st ∈ m.strategies ∧ st.name = a.strategy_name ∧
      (m.recommend u).1 = some (st.func u) ∧
      (m.recommend u).2.assignments u =
        some { a with remaining := a.remaining - 1 } ∧
      (∀ v, v ≠ u → (m.recommend u).2.assignments v = m.assignments v) ∧
      (m.recommend u).2.logs = m.logs ++
        [{ student_id := u, strategy_name := a.strategy_name,
           assignment_id := a.assignment_id,
           n_shown := (st.func u).length }] ∧
      (m.recommend u).2.nextId = m.nextId ∧
      (m.recommend u).2.strategies = m.strategies ∧
      (m.recommend u).2.n_books_per_assignment =
        m.n_books_per_assignment := by
  obtain ⟨st, hfind, hstname, hstmem⟩ := find_name_exists hmem
  have hgoc := getOrCreate_active ha hrem
  refine ⟨st, hstmem, hstname, ?_, ?_, ?_, ?_, ?_, ?_, ?_⟩
  · simp [ExpManager.recommend, hgoc, hfind]
  · simp [ExpManager.recommend, hgoc, hfind]
  · intro v hv
    simp [ExpManager.recommend, hgoc, hfind, hv]
  · simp [ExpManager.recommend, hgoc, hfind, hstname]
  · simp [ExpManager.recommend, hgoc, hfind]
  · simp [ExpManager.recommend, hgoc, hfind]
  · simp [ExpManager.recommend, hgoc, hfind]

/-! ### C5 and C10: per-call effects of `recommend` -/

/-- **C5.** Every `recommend` call appends exactly one impression-log
row — recording the calling user, the strategy name and assignment id
of the user's (current) assignment, and the number of items shown —
even when the returned list is empty; and it mutates no other user's
assignment state.  Hypotheses: the registry is non-empty and every
stored assignment names a registered strategy, which hold for every
manager the source builds. -/
theorem recommend_logs_one_entry (m : ExpManager) (u : ℕ)
    (hS : m.strategies ≠ []) (hWF : m.WF) :
    ∃ recs e, (m.recommend u).1 = some recs ∧
      (m.recommend u).2.logs = m.logs ++ [e] ∧
      e.student_id = u ∧ e.n_shown = recs.length ∧
      (recs = [] → e.n_shown = 0) ∧
      (∃ a, (m.recommend u).2.assignments u = some a ∧
        e.strategy_name = a.strategy_name ∧
        e.assignment_id = a.assignment_id) ∧
      (∀ v, v ≠ u → (m.recommend u).2.assignments v = m.assignments v) := by
  by_cases hactive : ∃ a, m.assignments u = some a ∧ 0 < a.remaining
  · obtain ⟨a, ha, hrem⟩ := hactive
    obtain ⟨st, hstmem, hstname, h1, h2, h3, h4, h5, h6, h7⟩ :=
      recommend_active_spec ha hrem (hWF u a ha)
    exact ⟨st.func u, _, h1, h4, rfl, rfl, (by intro h; simp [h]),
      ⟨_, h2, rfl, rfl⟩, h3⟩
  · have hfresh : ∀ a, m.assignments u = some a → a.remaining ≤ 0 := by
      intro a ha
      by_contra hlt
      exact hactive ⟨a, ha, lt_of_not_le hlt⟩
    obtain ⟨chosen, st, hchm, hstm, hstname, h1, h2, h3, h4, h5, h6, h7⟩ :=
      recommend_fresh_spec hS hfresh
    exact ⟨st.func u, _, h1, h4, rfl, rfl, (by intro h; simp [h]),
      ⟨_, h2, rfl, rfl⟩, h3⟩

/-- Witness for C5 at a concrete input: a one-strategy manager, user 7. -/
theorem recommend_logs_one_entry_witness :
    ((ExpManager.init [⟨5, 1, fun _ => []⟩] 2 (fun _ => 0)).strategies ≠ [] ∧
      (ExpManager.init [⟨5, 1, fun _ => []⟩] 2 (fun _ => 0)).WF) ∧
    (∃ recs e,
      ((ExpManager.init [⟨5, 1, fun _ => []⟩] 2 (fun _ => 0)).recommend 7).1 =
        some recs ∧
      ((ExpManager.init [⟨5, 1, fun _ => []⟩] 2 (fun _ => 0)).recommend 7).2.logs =
        (ExpManager.init [⟨5, 1, fun _ => []⟩] 2 (fun _ => 0)).logs ++ [e] ∧
      e.student_id = 7 ∧ e.n_shown = recs.length ∧
      (recs = [] → e.n_shown = 0) ∧
      (∃ a, ((ExpManager.init [⟨5, 1, fun _ => []⟩] 2
          (fun _ => 0)).recommend 7).2.assignments 7 = some a ∧
        e.strategy_name = a.strategy_name ∧
        e.assignment_id = a.assignment_id) ∧
      (∀ v, v ≠ 7 →
        ((ExpManager.init [⟨5, 1, fun _ => []⟩] 2
          (fun _ => 0)).recommend 7).2.assignments v =
        (ExpManager.init [⟨5, 1, fun _ => []⟩] 2
          (fun _ => 0)).assignments v)) := by
  have h1 : (ExpManager.init [⟨5, 1, fun _ => []⟩] 2
      (fun _ => 0)).strategies ≠ [] := by
    simp [ExpManager.init]
  have h2 : (ExpManager.init [⟨5, 1, fun _ => []⟩] 2 (fun _ => 0)).WF := by
    intro v a ha
    simp [ExpManager.init] at ha
  exact ⟨⟨h1, h2⟩,
    recommend_logs_one_entry (ExpManager.init [⟨5, 1, fun _ => []⟩] 2
      (fun _ => 0)) 7 h1 h2⟩

/-- **C10.** Each `recommend` call serves exactly the one strategy named
in the user's current assignment: the returned rows are that strategy's
own output, and when that output is empty the empty list is returned to
the caller and logged with `n_shown = 0` — no other strategy is
consulted (the result does not depend on any other registered
strategy). -/
theorem recommend_single_strategy (m : ExpManager) (u : ℕ)
    (hS : m.strategies ≠ []) (hWF : m.WF) :
    ∃ st, st ∈ m.strategies ∧
      (∃ a, (m.recommend u).2.assignments u = some a ∧
        st.name = a.strategy_name) ∧
      (m.recommend u).1 = some (st.func u) ∧
      (st.func u = [] →
        (m.recommend u).1 = some [] ∧
        ∃ e, (m.recommend u).2.logs = m.logs ++ [e] ∧ e.n_shown = 0) := by
  by_cases hactive : ∃ a, m.assignments u = some a ∧ 0 < a.remaining
  · obtain ⟨a, ha, hrem⟩ := hactive
    obtain ⟨st, hstmem, hstname, h1, h2, h3, h4, h5, h6, h7⟩ :=
      recommend_active_spec ha hrem (hWF u a ha)
    refine ⟨st, hstmem, ⟨_, h2, hstname⟩, h1, ?_⟩
    intro hempty
    rw [hempty] at h1 h4
    exact ⟨h1, _, h4, by simp⟩
  · have hfresh : ∀ a, m.assignments u = some a → a.remaining ≤ 0 := by
      intro a ha
      by_contra hlt
      exact hactive ⟨a, ha, lt_of_not_le hlt⟩
    obtain ⟨chosen, st, hchm, hstm, hstname, h1, h2, h3, h4, h5, h6, h7⟩ :=
      recommend_fresh_spec hS hfresh
    refine ⟨st, hstm, ⟨_, h2, hstname⟩, h1, ?_⟩
    intro hempty
    rw [hempty] at h1 h4
    exact ⟨h1, _, h4, by simp⟩

/-- Witness for C10 at a concrete input: a one-strategy manager whose
strategy returns no rows, user 7; the empty result is logged with
`n_shown = 0`. -/
theorem recommend_single_strategy_witness :
    ((ExpManager.init [⟨5, 1, fun _ => []⟩] 2 (fun _ => 0)).strategies ≠ [] ∧
      (ExpManager.init [⟨5, 1, fun _ => []⟩] 2 (fun _ => 0)).WF) ∧
    (∃ st, st ∈ (ExpManager.init [⟨5, 1, fun _ => []⟩] 2
        (fun _ => 0)).strategies ∧
      (∃ a, ((ExpManager.init [⟨5, 1, fun _ => []⟩] 2
          (fun _ => 0)).recommend 7).2.assignments 7 = some a ∧
        st.name = a.strategy_name) ∧
      ((ExpManager.init [⟨5, 1, fun _ => []⟩] 2
          (fun _ => 0)).recommend 7).1 = some (st.func 7) ∧
      (st.func 7 = [] →
        ((ExpManager.init [⟨5, 1, fun _ => []⟩] 2
            (fun _ => 0)).recommend 7).1 = some [] ∧
        ∃ e, ((ExpManager.init [⟨5, 1, fun _ => []⟩] 2
            (fun _ => 0)).recommend 7).2.logs =
          (ExpManager.init [⟨5, 1, fun _ => []⟩] 2
            (fun _ => 0)).logs ++ [e] ∧ e.n_shown = 0)) := by
  have h1 : (ExpManager.init [⟨5, 1, fun _ => []⟩] 2
      (fun _ => 0)).strategies ≠ [] := by
    simp [ExpManager.init]
  have h2 : (ExpManager.init [⟨5, 1, fun _ => []⟩] 2 (fun _ => 0)).WF := by
    intro v a ha
    simp [ExpManager.init] at ha
  exact ⟨⟨h1, h2⟩,
    recommend_single_strategy (ExpManager.init [⟨5, 1, fun _ => []⟩] 2
      (fun _ => 0)) 7 h1 h2⟩

/-! ### C2: the sticky-assignment invariant -/

/-- The manager state after `i` consecutive `recommend` calls for
student `u`. -/
def serveCalls (m : ExpManager) (u : ℕ) : ℕ → ExpManager
  | 0 => m
  | i + 1 => ((serveCalls m u i).recommend u).2

/-- The impression-log row appended by the `(i+1)`-st consecutive call
for `u`: the last row after that call. -/
def logAt (m : ExpManager) (u : ℕ) (i : ℕ) : Option LogEntry :=
  (serveCalls m u (i + 1)).logs.getLast?

theorem serveCalls_zero (m : ExpManager) (u : ℕ) : serveCalls m u 0 = m :=
  rfl

theorem serveCalls_succ (m : ExpManager) (u i : ℕ) :
    serveCalls m u (i + 1) = ((serveCalls m u i).recommend u).2 :=
  rfl

/-- Induction core for the sticky invariant: starting from a state where
`u` has no live assignment, the first call draws one assignment (of some
registered strategy `name`, with the fresh id `m.nextId`), and each of
the first `n_books_per_assignment` calls serves it, decrementing
`remaining` by exactly 1 per call and logging `name` and that id. -/
theorem sticky_aux (m : ExpManager) (u : ℕ)
    (hS : m.strategies ≠ [])
    (hfresh : ∀ a, m.assignments u = some a → a.remaining ≤ 0) :
    ∃ name, (∃ s ∈ m.strategies, s.name = name) ∧
      ∀ j : ℕ, j < m.n_books_per_assignment.toNat →
        (serveCalls m u (j + 1)).assignments u =
          some { strategy_name := name,
                 remaining := m.n_books_per_assignment - ((j : ℤ) + 1),
                 assignment_id := m.nextId } ∧
        (serveCalls m u (j + 1)).nextId = m.nextId + 1 ∧
        (serveCalls m u (j + 1)).strategies = m.strategies ∧
        (serveCalls m u (j + 1)).n_books_per_assignment =
          m.n_books_per_assignment ∧
        (∃ e, logAt m u j = some e ∧ e.strategy_name = name ∧
          e.assignment_id = m.nextId) := by
  obtain ⟨chosen, st, hchm, hstm, hstname, h1, h2, h3, h4, h5, h6, h7⟩ :=
    recommend_fresh_spec hS hfresh
  refine ⟨chosen.name, ⟨chosen, hchm, rfl⟩, ?_⟩
  intro j
  induction j with
  | zero =>
    intro hj0
    refine ⟨?_, ?_, ?_, ?_, ?_⟩
    · rw [serveCalls_succ, serveCalls_zero, h2]
      norm_num
    · rw [serveCalls_succ, serveCalls_zero]
      exact h5
    · rw [serveCalls_succ, serveCalls_zero]
      exact h6
    · rw [serveCalls_succ, serveCalls_zero]
      exact h7
    · refine ⟨LogEntry.mk u chosen.name m.nextId (st.func u).length,
        ?_, rfl, rfl⟩
      rw [logAt, serveCalls_succ, serveCalls_zero, h4, List.getLast?_concat]
  | succ j ih =>
    intro hj
    have hjlt : j < m.n_books_per_assignment.toNat := Nat.lt_of_succ_lt hj
    obtain ⟨hA, hnext, hstrat, hnper, _⟩ := ih hjlt
    have hrem : (0 : ℤ) <
        m.n_books_per_assignment - ((j : ℤ) + 1) := by
      omega
    have hmem' : ∃ s' ∈ (serveCalls m u (j + 1)).strategies,
        s'.name = chosen.name := by
      rw [hstrat]
      exact ⟨chosen, hchm, rfl⟩
    obtain ⟨st', hstm', hstname', g1, g2, g3, g4, g5, g6, g7⟩ :=
      recommend_active_spec hA hrem hmem'
    refine ⟨?_, ?_, ?_, ?_, ?_⟩
    · rw [serveCalls_succ, g2]
      simp only [Option.some.injEq, Assignment.mk.injEq, and_true, true_and]
      push_cast
      ring
    · rw [serveCalls_succ, g5]
      exact hnext
    · rw [serveCalls_succ, g6]
      exact hstrat
    · rw [serveCalls_succ, g7]
      exact hnper
    · refine ⟨LogEntry.mk u chosen.name m.nextId (st'.func u).length,
        ?_, rfl, rfl⟩
      rw [logAt, serveCalls_succ, g4, List.getLast?_concat]

/-- **C2.** For a user with no live assignment in a validly configured
manager (`1 ≤ n_books_per_assignment`, non-empty registry), the first
`n_books_per_assignment` consecutive `recommend` calls all serve the
same strategy name and the same (fresh) assignment id, with
`remaining` decremented by exactly 1 per served call; the very next
call draws a fresh assignment whose id differs from the previous one. -/
theorem sticky_assignment (m : ExpManager) (u : ℕ)
    (hS : m.strategies ≠ [])
    (hn : 1 ≤ m.n_books_per_assignment)
    (hfresh : ∀ a, m.assignments u = some a → a.remaining ≤ 0) :
    ∃ name,
      (∀ i, i < m.n_books_per_assignment.toNat →
        (∃ e, logAt m u i = some e ∧ e.strategy_name = name ∧
          e.assignment_id = m.nextId) ∧
        (serveCalls m u (i + 1)).assignments u =
          some { strategy_name := name,
                 remaining := m.n_books_per_assignment - ((i : ℤ) + 1),
                 assignment_id := m.nextId }) ∧
      (∃ e, logAt m u m.n_books_per_assignment.toNat = some e ∧
        e.assignment_id ≠ m.nextId) := by
  obtain ⟨name, hmem, haux⟩ := sticky_aux m u hS hfresh
  refine ⟨name, fun i hi => ⟨(haux i hi).2.2.2.2, (haux i hi).1⟩, ?_⟩
  obtain ⟨j, hj⟩ : ∃ j, m.n_books_per_assignment.toNat = j + 1 :=
    ⟨m.n_books_per_assignment.toNat - 1, by omega⟩
  obtain ⟨hA, hnext, hstrat, hnper, _⟩ := haux j (by omega)
  have hS' : (serveCalls m u (j + 1)).strategies ≠ [] := by
    rw [hstrat]
    exact hS
  have hfresh' : ∀ a, (serveCalls m u (j + 1)).assignments u = some a →
      a.remaining ≤ 0 := by
    intro a ha
    rw [hA] at ha
    cases ha
    show m.n_books_per_assignment - ((j : ℤ) + 1) ≤ 0
    omega
  obtain ⟨chosen', st'', _, _, _, k1, k2, k3, k4, k5, k6, k7⟩ :=
    recommend_fresh_spec hS' hfresh'
  refine ⟨LogEntry.mk u chosen'.name (serveCalls m u (j + 1)).nextId
      ((st''.func u).length), ?_, ?_⟩
  · rw [hj, logAt, serveCalls_succ, k4, List.getLast?_concat]
  · show (serveCalls m u (j + 1)).nextId ≠ m.nextId
    rw [hnext]
    omega

/-- Witness for C2 at a concrete input: a freshly constructed
one-strategy manager with a budget of 1 call, user 7. -/
theorem sticky_assignment_witness :
    ((ExpManager.init [⟨5, 1, fun _ => []⟩] 1 (fun _ => 0)).strategies ≠ [] ∧
      1 ≤ (ExpManager.init [⟨5, 1, fun _ => []⟩] 1
        (fun _ => 0)).n_books_per_assignment ∧
      (∀ a, (ExpManager.init [⟨5, 1, fun _ => []⟩] 1
          (fun _ => 0)).assignments 7 = some a → a.remaining ≤ 0)) ∧
    (∃ name,
      (∀ i, i < (ExpManager.init [⟨5, 1, fun _ => []⟩] 1
          (fun _ => 0)).n_books_per_assignment.toNat →
        (∃ e, logAt (ExpManager.init [⟨5, 1, fun _ => []⟩] 1
            (fun _ => 0)) 7 i = some e ∧ e.strategy_name = name ∧
          e.assignment_id = (ExpManager.init [⟨5, 1, fun _ => []⟩] 1
            (fun _ => 0)).nextId) ∧
        (serveCalls (ExpManager.init [⟨5, 1, fun _ => []⟩] 1
            (fun _ => 0)) 7 (i + 1)).assignments 7 =
          some { strategy_name := name,
                 remaining := (ExpManager.init [⟨5, 1, fun _ => []⟩] 1
                   (fun _ => 0)).n_books_per_assignment - ((i : ℤ) + 1),
                 assignment_id := (ExpManager.init [⟨5, 1, fun _ => []⟩] 1
                   (fun _ => 0)).nextId }) ∧
      (∃ e, logAt (ExpManager.init [⟨5, 1, fun _ => []⟩] 1 (fun _ => 0)) 7
          (ExpManager.init [⟨5, 1, fun _ => []⟩] 1
            (fun _ => 0)).n_books_per_assignment.toNat = some e ∧
        e.assignment_id ≠ (ExpManager.init [⟨5, 1, fun _ => []⟩] 1
          (fun _ => 0)).nextId)) := by
  have h1 : (ExpManager.init [⟨5, 1, fun _ => []⟩] 1
      (fun _ => 0)).strategies ≠ [] := by
    simp [ExpManager.init]
  have h2 : 1 ≤ (ExpManager.init [⟨5, 1, fun _ => []⟩] 1
      (fun _ => 0)).n_books_per_assignment := le_refl 1
  have h3 : ∀ a, (ExpManager.init [⟨5, 1, fun _ => []⟩] 1
      (fun _ => 0)).assignments 7 = some a → a.remaining ≤ 0 := by
    intro a ha
    simp [ExpManager.init] at ha
  exact ⟨⟨h1, h2, h3⟩,
    sticky_assignment (ExpManager.init [⟨5, 1, fun _ => []⟩] 1
      (fun _ => 0)) 7 h1 h2 h3⟩

/-! ### The outcome logger -/

/-! ### The outcome logger -/

/-- One outcome row of the `OutcomeLogger` (the wall-clock timestamp and
the constant `event_type = "borrow"` columns are not modelled).  The
nullable ids are `Option`s; a malformed ("empty") identifier of the
claims is encoded as the id 0 — the source never inspects identifiers,
so every encoding behaves identically. -/
structure OutcomeEvent where
  student_id : ℕ
  book_id : ℕ
  assignment_id : Option ℕ
  strategy_name : Option ℕ
deriving DecidableEq, Repr

/-- The outcome logger: just its append-only `events` list. -/
structure OutcomeLogger where
  events : List OutcomeEvent
deriving DecidableEq, Repr

/-- `OutcomeLogger.log_borrow(student_id, book_id, assignment_id,
strategy_name)`: unconditionally append one event row.  The source
performs no validation of any argument. -/
def OutcomeLogger.log_borrow (L : OutcomeLogger) (student_id book_id : ℕ)
    (assignment_id strategy_name : Option ℕ) : OutcomeLogger :=
  { events := L.events ++
      [{ student_id := student_id, book_id := book_id,
         assignment_id := assignment_id, strategy_name := strategy_name }] }

/-! ### C4: traffic-weight normalization -/

/-- Two strategies with bids `1` and `-3`: mixed-sign weights, not all
`≤ 0`, summing to `-2`. -/
def c4Strategies : List Strategy :=
  [{ name := 0, bid := 1, func := fun _ => [] },
   { name := 1, bid := -3, func := fun _ => [] }]

/-- **C4** (counterexample).  The claim says the selection probabilities
equal `traffic_weight / sum(traffic_weights)`, with a uniform fallback
only when all weights are ≤ 0.  The source's fallback condition is
`bids.sum() <= 0`: with bids `[1, -3]` (not all ≤ 0) it takes the
uniform vector `[1/2, 1/2]`, not the claim's normalized vector
`[1/(-2), -3/(-2)] = [-1/2, 3/2]`. -/
theorem probs_not_normalized_bids :
    (ExpManager.init c4Strategies 5 (fun _ => 0)).probs = [1/2, 1/2] ∧
    (ExpManager.init c4Strategies 5 (fun _ => 0)).probs ≠
      (c4Strategies.map (·.bid)).map
        (· / (c4Strategies.map (·.bid)).sum) := by
  have h : (ExpManager.init c4Strategies 5 (fun _ => 0)).probs = [1/2, 1/2] := by
    norm_num [ExpManager.init, computeProbs, c4Strategies]
  refine ⟨h, ?_⟩
  rw [h]
  norm_num [c4Strategies]

/-- **C4** (amended).  A new assignment's strategy is drawn by
`np.random.choice` with the selection probabilities `probs` computed at
construction: when the traffic weights sum to a positive value, `probs`
is the weights normalized by their sum; whenever the sum is ≤ 0 — in
particular when all weights are ≤ 0, as the claim says — the draw falls
back to the uniform vector over the registered strategies. -/
theorem probs_normalization (S : List Strategy) (n : ℤ) (draws : ℕ → ℕ) :
    (0 < (S.map (·.bid)).sum →
      (ExpManager.init S n draws).probs =
        (S.map (·.bid)).map (· / (S.map (·.bid)).sum)) ∧
    ((S.map (·.bid)).sum ≤ 0 →
      (ExpManager.init S n draws).probs =
        (S.map (·.bid)).map (fun _ => 1 / (S.length : ℚ))) ∧
    ((∀ b ∈ S.map (·.bid), b ≤ 0) →
      (ExpManager.init S n draws).probs =
        (S.map (·.bid)).map (fun _ => 1 / (S.length : ℚ))) := by
  have hsumle : (∀ b ∈ S.map (·.bid), b ≤ 0) → (S.map (·.bid)).sum ≤ 0 := by
    intro hall
    induction S with
    | nil => simp
    | cons s t ih =>
      simp only [List.map_cons, List.sum_cons]
      have hs := hall s.bid (by simp)
      have ht := ih (fun b hb => hall b (by simp [hb]))
      exact add_nonpos hs ht
  have hlen : (S.map (·.bid)).length = S.length := List.length_map _ _
  refine ⟨?_, ?_, ?_⟩
  · intro hpos
    simp only [ExpManager.init, computeProbs, if_neg (not_le.mpr hpos)]
  · intro hle
    simp only [ExpManager.init, computeProbs, if_pos hle, hlen]
  · intro hall
    simp only [ExpManager.init, computeProbs, if_pos (hsumle hall), hlen]

/-- Two strategies with bids `2` and `1` (the configuration of the
source's demo). -/
def c4PosStrategies : List Strategy :=
  [{ name := 0, bid := 2, func := fun _ => [] },
   { name := 1, bid := 1, func := fun _ => [] }]

/-- Witness for C4 (amended) at a concrete input: with bids `[2, 1]` the
normalized branch applies. -/
theorem probs_normalization_witness :
    0 < ((c4PosStrategies.map (·.bid)).sum) ∧
    (ExpManager.init c4PosStrategies 5 (fun _ => 0)).probs =
      (c4PosStrategies.map (·.bid)).map
        (· / (c4PosStrategies.map (·.bid)).sum) := by
  have h : 0 < ((c4PosStrategies.map (·.bid)).sum) := by
    norm_num [c4PosStrategies]
  exact ⟨h, (probs_normalization c4PosStrategies 5 (fun _ => 0)).1 h⟩

/-! ### C6: no construction-time validation -/

/-- **C6** (counterexample).  The claim says a zero or negative
`n_calls_per_assignment`, or an empty strategy registry, must prevent
the allocator from being constructed.  The source constructor contains
no check at all: called with the empty registry and budget 0 it
constructs the manager whose fields are shown here, refuting "the
Allocator object must not be constructed". -/
theorem manager_constructed_despite_bad_config :
    (ExpManager.init [] 0 (fun _ => 0)).strategies = [] ∧
    (ExpManager.init [] 0 (fun _ => 0)).n_books_per_assignment = 0 ∧
    (ExpManager.init [] 0 (fun _ => 0)).probs = [] := by
  refine ⟨rfl, rfl, ?_⟩
  simp [ExpManager.init, computeProbs]

/-- **C6** (amended).  Construction never fails: for every registry
(including the empty one) and every `n_books_per_assignment` (including
zero and negatives) the constructor returns a manager storing the
arguments unchanged; misconfiguration surfaces only later, at draw
time. -/
theorem manager_construction_never_fails (S : List Strategy) (n : ℤ)
    (draws : ℕ → ℕ) :
    (ExpManager.init S n draws).strategies = S ∧
    (ExpManager.init S n draws).n_books_per_assignment = n ∧
    (ExpManager.init S n draws).logs = [] :=
  ⟨rfl, rfl, rfl⟩

/-! ### C7: the outcome logger validates nothing -/

/-- **C7** (counterexample).  The claim says a call with a missing
(empty/null) `user_id` or `item_id` is rejected with no mutation of the
event list.  `log_borrow` has no validation path: called on the empty
logger with the malformed ids (encoded as 0) it still appends its row,
so the event list is not left unchanged. -/
theorem log_borrow_accepts_malformed_ids :
    (OutcomeLogger.log_borrow ⟨[]⟩ 0 0 none none).events =
      [{ student_id := 0, book_id := 0,
         assignment_id := none, strategy_name := none }] ∧
    (OutcomeLogger.log_borrow ⟨[]⟩ 0 0 none none).events ≠ [] := by
  exact ⟨rfl, by simp [OutcomeLogger.log_borrow]⟩

/-- **C7** (amended).  `log_borrow` never fails and never rejects: every
call — including one with malformed (empty/null) identifiers — appends
exactly one event row recording its arguments, and mutates nothing
else. -/
theorem log_borrow_always_appends (L : OutcomeLogger)
    (student_id book_id : ℕ) (assignment_id strategy_name : Option ℕ) :
    (L.log_borrow student_id book_id assignment_id strategy_name).events =
      L.events ++
        [{ student_id := student_id, book_id := book_id,
           assignment_id := assignment_id, strategy_name := strategy_name }] :=
  rfl

end LibraryReading
